import Mathlib

/-!
Verification of the Masa log viewer's record-extraction and filter engine
(`src/main.py`).  The Python code is shallowly embedded: strings are
`List Char` (Python compares strings by code points, as Lean does),
Python values decoded from JSON are `PyVal`, fallible parsing returns
`Option`, and the stateful filter-row UI is explicit state passing over
`FState`.  Machine integers do not occur (Python integers are unbounded),
so `Nat`/`Int` are used directly.
-/

/-! ## Basic string helpers -/

/-- Code-point list of a string literal. -/
def chars (s : String) : List Char := s.data

/-- Characters removed by Python's `str.strip()` (ASCII whitespace fragment;
the log fields never contain the exotic Unicode space characters). -/
def pySpace (c : Char) : Bool :=
  c = ' ' || c = '\t' || c = '\n' || c = '\r' || c = '\x0b' || c = '\x0c'

/-- Model of Python `str.strip()`. -/
def pyStrip (s : List Char) : List Char :=
  ((s.dropWhile pySpace).reverse.dropWhile pySpace).reverse

/-- Lexicographic comparison of Python strings (`<=` on `str`): compare
code points elementwise, a proper prefix is smaller. -/
def tsLe : List Char → List Char → Bool
  | [], _ => true
  | _ :: _, [] => false
  | a :: as, b :: bs => if a = b then tsLe as bs else decide (a < b)

/-! ## Python values decoded from JSON

`json.loads` produces `dict` / `list` / `str` / `int` / `bool` / `None`.
Fractional and exponent number literals decode to Python floats, whose
binary rounding is outside this integer model; payloads containing them
are outside the modelled fragment (the parser rejects them). -/

inductive PyVal where
  | str (s : List Char)
  | int (n : Int)
  | bool (b : Bool)
  | none
  | list (xs : List PyVal)
  | dict (entries : List (List Char × PyVal))

/-- Decimal rendering of a Python integer. -/
def intChars (n : Int) : List Char :=
  if n < 0 then '-' :: Nat.toDigits 10 n.natAbs else Nat.toDigits 10 n.natAbs

/-- Escaping used by Python `repr` on strings (modelled fragment: the
backslash, the quote character and the common control characters; other
characters print verbatim). -/
def reprEsc (c : Char) : List Char :=
  if c = '\\' then ['\\', '\\']
  else if c = '\x27' then ['\\', '\x27']
  else if c = '\n' then ['\\', 'n']
  else if c = '\r' then ['\\', 'r']
  else if c = '\t' then ['\\', 't']
  else [c]

/-- Comma-separated concatenation, as in Python container `repr`. -/
def commaJoin : List (List Char) → List Char
  | [] => []
  | [x] => x
  | x :: y :: xs => x ++ chars ", " ++ commaJoin (y :: xs)

mutual

/-- Model of Python `repr` on values decoded from JSON. -/
def pyRepr : PyVal → List Char
  | .str s => '\x27' :: (s.map reprEsc).flatten ++ ['\x27']
  | .int n => intChars n
  | .bool b => if b then chars "True" else chars "False"
  | .none => chars "None"
  | .list xs => '[' :: commaJoin (pyReprL xs) ++ [']']
  | .dict es => '\x7b' :: commaJoin (pyReprD es) ++ ['\x7d']

/-- Renders the `repr` of each element of a Python list. -/
def pyReprL : List PyVal → List (List Char)
  | [] => []
  | x :: xs => pyRepr x :: pyReprL xs

/-- Renders the `repr` of each `key: value` item of a Python dict. -/
def pyReprD : List (List Char × PyVal) → List (List Char)
  | [] => []
  | (k, v) :: xs =>
    ('\x27' :: (k.map reprEsc).flatten ++ ['\x27'] ++ chars ": " ++ pyRepr v) :: pyReprD xs

end

/-- Model of Python `str` on values decoded from JSON: a string prints
itself, every other value prints as its `repr`. -/
def pyStr : PyVal → List Char
  | .str s => s
  | v => pyRepr v

/-! ## JSON parser (model of `json.loads`)

Fuel-based recursive descent over the JSON grammar that `json.loads`
accepts; the fuel is always at least the input length plus one, so it
never runs out on the paths the program exercises. -/

/-- JSON inter-token whitespace. -/
def jWs (c : Char) : Bool := c = ' ' || c = '\t' || c = '\n' || c = '\r'

/-- Value of a hexadecimal digit. -/
def hexVal (c : Char) : Option Nat :=
  if '0' ≤ c ∧ c ≤ '9' then some (c.toNat - 48)
  else if 'a' ≤ c ∧ c ≤ 'f' then some (c.toNat - 87)
  else if 'A' ≤ c ∧ c ≤ 'F' then some (c.toNat - 55)
  else Option.none

/-- Four hex digits of a `\uXXXX` escape. -/
def parseU4 : List Char → Option (Nat × List Char)
  | c1 :: c2 :: c3 :: c4 :: rest => do
    let a ← hexVal c1
    let b ← hexVal c2
    let c ← hexVal c3
    let d ← hexVal c4
    pure (((a * 16 + b) * 16 + c) * 16 + d, rest)
  | _ => Option.none

/-- Body of a JSON string literal, after the opening quote.  Handles the
escapes `json.loads` accepts, combining surrogate pairs; a lone surrogate
(which Python keeps as an unpaired code unit, unrepresentable in `Char`)
falls back to `Char.ofNat`'s default.  Raw control characters are
rejected, as in strict-mode `json.loads`. -/
def parseJString (fuel : Nat) (acc : List Char) (s : List Char) : Option (List Char × List Char) :=
  match fuel, s with
  | 0, _ => Option.none
  | _, [] => Option.none
  | f + 1, c :: rest =>
    if c = '"' then some (acc.reverse, rest)
    else if c = '\\' then
      match rest with
      | [] => Option.none
      | e :: rest' =>
        if e = '"' then parseJString f ('"' :: acc) rest'
        else if e = '\\' then parseJString f ('\\' :: acc) rest'
        else if e = '/' then parseJString f ('/' :: acc) rest'
        else if e = 'b' then parseJString f ('\x08' :: acc) rest'
        else if e = 'f' then parseJString f ('\x0c' :: acc) rest'
        else if e = 'n' then parseJString f ('\n' :: acc) rest'
        else if e = 'r' then parseJString f ('\r' :: acc) rest'
        else if e = 't' then parseJString f ('\t' :: acc) rest'
        else if e = 'u' then
          match parseU4 rest' with
          | Option.none => Option.none
          | some (n, rest2) =>
            if 0xD800 ≤ n ∧ n < 0xDC00 then
              match rest2 with
              | '\\' :: 'u' :: rest3 =>
                match parseU4 rest3 with
                | some (n2, rest4) =>
                  if 0xDC00 ≤ n2 ∧ n2 < 0xE000 then
                    parseJString f
                      (Char.ofNat (0x10000 + (n - 0xD800) * 0x400 + (n2 - 0xDC00)) :: acc) rest4
                  else parseJString f (Char.ofNat n :: acc) rest2
                | Option.none => parseJString f (Char.ofNat n :: acc) rest2
              | _ => parseJString f (Char.ofNat n :: acc) rest2
            else parseJString f (Char.ofNat n :: acc) rest2
        else Option.none
    else if c.toNat < 32 then Option.none
    else parseJString f (c :: acc) rest

/-- Python-dict insertion: a repeated key keeps its first position and
takes the last value, as `json.loads` builds objects. -/
def dictInsert (es : List (List Char × PyVal)) (k : List Char) (v : PyVal) :
    List (List Char × PyVal) :=
  if es.any (fun e => e.1 = k) then
    es.map (fun e => if e.1 = k then (k, v) else e)
  else es ++ [(k, v)]

/-- JSON integer token: `-?(0|[1-9][0-9]*)`, rejected when a fraction or
exponent follows (that would decode to a Python float, outside the
modelled fragment). -/
def parseJInt (s : List Char) : Option (Int × List Char) :=
  let (neg, s1) : Bool × List Char :=
    match s with
    | '-' :: r => (true, r)
    | _ => (false, s)
  match s1 with
  | c :: rest =>
    if c = '0' then
      match rest with
      | d :: _ =>
        if d.isDigit ∨ d = '.' ∨ d = 'e' ∨ d = 'E' then Option.none
        else some (if neg then 0 else 0, rest)
      | [] => some (0, [])
    else if c.isDigit then
      let ds := s1.takeWhile Char.isDigit
      let rest' := s1.dropWhile Char.isDigit
      match rest' with
      | d :: _ =>
        if d = '.' ∨ d = 'e' ∨ d = 'E' then Option.none
        else
          let n : Nat := ds.foldl (fun a c => a * 10 + (c.toNat - 48)) 0
          some (if neg then -(n : Int) else (n : Int), rest')
      | [] =>
        let n : Nat := ds.foldl (fun a c => a * 10 + (c.toNat - 48)) 0
        some (if neg then -(n : Int) else (n : Int), [])
    else Option.none
  | [] => Option.none

mutual

/-- One JSON value, returning the remaining input. -/
def parseJValue (fuel : Nat) (s : List Char) : Option (PyVal × List Char) :=
  match fuel with
  | 0 => Option.none
  | f + 1 =>
    match s with
    | [] => Option.none
    | c :: rest =>
      if c = '"' then
        match parseJString (f + 1) [] rest with
        | some (str, r) => some (.str str, r)
        | Option.none => Option.none
      else if c = '\x7b' then
        match (rest.dropWhile jWs) with
        | '\x7d' :: r => some (.dict [], r)
        | r => parseJMembers f [] r
      else if c = '[' then
        match (rest.dropWhile jWs) with
        | ']' :: r => some (.list [], r)
        | r => parseJElements f [] r
      else if c = 't' then
        match s with
        | 't' :: 'r' :: 'u' :: 'e' :: r => some (.bool true, r)
        | _ => Option.none
      else if c = 'f' then
        match s with
        | 'f' :: 'a' :: 'l' :: 's' :: 'e' :: r => some (.bool false, r)
        | _ => Option.none
      else if c = 'n' then
        match s with
        | 'n' :: 'u' :: 'l' :: 'l' :: r => some (.none, r)
        | _ => Option.none
      else
        match parseJInt s with
        | some (n, r) => some (.int n, r)
        | Option.none => Option.none

/-- Members of a JSON object, positioned at a key (after `{` and
whitespace). -/
def parseJMembers (fuel : Nat) (acc : List (List Char × PyVal)) (s : List Char) :
    Option (PyVal × List Char) :=
  match fuel with
  | 0 => Option.none
  | f + 1 =>
    match s with
    | '"' :: rest =>
      match parseJString (f + 1) [] rest with
      | some (k, r1) =>
        match r1.dropWhile jWs with
        | ':' :: r2 =>
          match parseJValue f (r2.dropWhile jWs) with
          | some (v, r3) =>
            match r3.dropWhile jWs with
            | ',' :: r4 => parseJMembers f (dictInsert acc k v) (r4.dropWhile jWs)
            | '\x7d' :: r4 => some (.dict (dictInsert acc k v), r4)
            | _ => Option.none
          | Option.none => Option.none
        | _ => Option.none
      | Option.none => Option.none
    | _ => Option.none

/-- Elements of a JSON array, positioned at a value (after `[` and
whitespace). -/
def parseJElements (fuel : Nat) (acc : List PyVal) (s : List Char) :
    Option (PyVal × List Char) :=
  match fuel with
  | 0 => Option.none
  | f + 1 =>
    match parseJValue f s with
    | some (v, r1) =>
      match r1.dropWhile jWs with
      | ',' :: r2 => parseJElements f (acc ++ [v]) (r2.dropWhile jWs)
      | ']' :: r2 => some (.list (acc ++ [v]), r2)
      | _ => Option.none
    | Option.none => Option.none

end

/-- Model of `json.loads`: whitespace around a single value, the whole
input consumed. -/
def jsonLoads (s : List Char) : Option PyVal :=
  match parseJValue (s.length + 1) (s.dropWhile jWs) with
  | some (v, rest) => if rest.dropWhile jWs = [] then some v else Option.none
  | Option.none => Option.none

/-! ## Line matching

Model of `re.match(r'^\[(.*?)\].*?POST Request Details (\{.*?\}) \[\]$', line)`
in `MasaLogAPIThread.run`.  The lazy stars are implemented by leftmost
scans with backtracking; `.` does not match a newline (lines produced by
`splitlines` never contain one, and the scanners refuse it exactly as the
regex would). -/

/-- The literal that opens capture group 2: `POST Request Details ` plus
the group's opening brace. -/
def postMarker : List Char := chars "POST Request Details \x7b"

/-- Scan for group 2's body: `.*?` bounded by the literal `} []` at the
end of the line (the `$` anchor).  Returns the body (without the closing
brace) of the shortest match, which the anchor forces to end at the `}`
directly before the trailing ` []`. -/
def scanJson : List Char → List Char → Option (List Char)
  | [], _ => Option.none
  | c :: rest, acc =>
    if c = '\x7d' ∧ rest = [' ', '[', ']'] then some acc.reverse
    else if c = '\n' then Option.none
    else scanJson rest (c :: acc)

/-- Scan for `.*?POST Request Details (\{.*?\}) \[\]$`: find the leftmost
occurrence of the marker from which the bounded group-2 scan succeeds;
on failure backtrack one character and continue. -/
def scanMarker : List Char → Option (List Char)
  | [] => Option.none
  | c :: rest =>
    if postMarker.isPrefixOf (c :: rest) then
      match scanJson ((c :: rest).drop postMarker.length) [] with
      | some body => some ('\x7b' :: body ++ ['\x7d'])
      | Option.none => if c = '\n' then Option.none else scanMarker rest
    else if c = '\n' then Option.none else scanMarker rest

/-- Scan for group 1: `(.*?)\]` followed by the rest of the pattern; the
lazy star stops at the first `]` from which the rest matches, otherwise
it swallows the `]` and continues. -/
def scanBracket : List Char → List Char → Option (List Char × List Char)
  | [], _ => Option.none
  | c :: rest, acc =>
    if c = ']' then
      match scanMarker rest with
      | some js => some (acc.reverse, js)
      | Option.none => scanBracket rest (c :: acc)
    else if c = '\n' then Option.none
    else scanBracket rest (c :: acc)

/-- Whole-line match: returns `(timestamp, json_str)`, the two capture
groups, when the line fits the pattern. -/
def matchLine (line : List Char) : Option (List Char × List Char) :=
  match line with
  | '[' :: rest => scanBracket rest []
  | _ => Option.none

/-! ## Timestamp handling

Model of `datetime.fromisoformat(timestamp).astimezone(self.tz_taipei)`
followed by `strftime("%Y-%m-%d %H:%M:%S")`.  A datetime is a validated
civil tuple `DT`; an aware input carries its UTC offset in minutes.
`astimezone` on a naive datetime interprets it in the system's local
timezone, which is modelled as the explicit parameter `localOff`
(minutes east of UTC).  `Asia/Taipei` is modelled as fixed UTC+8, its
offset since 1980. -/

structure DT where
  y : Nat
  m : Nat
  d : Nat
  hh : Nat
  mi : Nat
  ss : Nat
  deriving DecidableEq

/-- Leap year of the proleptic Gregorian calendar. -/
def isLeap (y : Nat) : Bool := y % 4 = 0 && (y % 100 ≠ 0 || y % 400 = 0)

/-- Length of a month. -/
def daysInMonth (y m : Nat) : Nat :=
  if m = 2 then (if isLeap y then 29 else 28)
  else if m = 4 ∨ m = 6 ∨ m = 9 ∨ m = 11 then 30
  else 31

/-- Julian day number of a civil date (valid for year ≥ 1, month 1-12). -/
def daysFromCivil (y m d : Nat) : Nat :=
  let a := (14 - m) / 12
  let y' := y + 4800 - a
  let m' := m + 12 * a - 3
  d + (153 * m' + 2) / 5 + 365 * y' + y' / 4 - y' / 100 + y' / 400 - 32045

/-- Civil date from a Julian day number (inverse of `daysFromCivil`). -/
def civilFromDays (jdn : Nat) : Nat × Nat × Nat :=
  let a := jdn + 32044
  let b := (4 * a + 3) / 146097
  let c := a - 146097 * b / 4
  let d1 := (4 * c + 3) / 1461
  let e := c - 1461 * d1 / 4
  let m1 := (5 * e + 2) / 153
  (100 * b + d1 - 4800 + m1 / 10, m1 + 3 - 12 * (m1 / 10), e - (153 * m1 + 2) / 5 + 1)

/-- Shift a datetime by a whole number of minutes (timezone conversions
move by whole minutes; seconds are unchanged). -/
def shiftMinutes (t : DT) (delta : Int) : DT :=
  let tot : Int := ((daysFromCivil t.y t.m t.d) * 1440 + t.hh * 60 + t.mi : Nat) + delta
  let totN := tot.toNat
  let c := civilFromDays (totN / 1440)
  ⟨c.1, c.2.1, c.2.2, totN % 1440 / 60, totN % 1440 % 60, t.ss⟩

/-- Exactly `n` decimal digits, most significant first. -/
def parseDigits : Nat → Nat → List Char → Option (Nat × List Char)
  | 0, acc, s => some (acc, s)
  | n + 1, acc, c :: s =>
    if c.isDigit then parseDigits n (acc * 10 + (c.toNat - 48)) s else Option.none
  | _ + 1, _, [] => Option.none

/-- Optional fractional-second suffix `.d{1,6}` (`fromisoformat` parses
it; `strftime` later discards it, so only its shape matters). -/
def isoSkipFrac (s : List Char) : Option (List Char) :=
  match s with
  | '.' :: rest =>
    let ds := rest.takeWhile Char.isDigit
    if 1 ≤ ds.length ∧ ds.length ≤ 6 then some (rest.dropWhile Char.isDigit) else Option.none
  | _ => some s

/-- UTC-offset suffix: empty (naive), `Z`, or `±HH:MM`; the result is in
minutes east of UTC. -/
def isoParseOff (s : List Char) : Option (Option Int) :=
  match s with
  | [] => some Option.none
  | ['Z'] => some (some 0)
  | sign :: rest =>
    if sign = '+' ∨ sign = '-' then
      match parseDigits 2 0 rest with
      | some (oh, ':' :: r1) =>
        match parseDigits 2 0 r1 with
        | some (om, []) =>
          if oh ≤ 23 ∧ om ≤ 59 then
            some (some (if sign = '-' then -((oh * 60 + om : Nat) : Int) else (oh * 60 + om : Nat)))
          else Option.none
        | _ => Option.none
      | _ => Option.none
    else Option.none

/-- Time-of-day part `HH[:MM[:SS[.frac]]]` plus offset. -/
def isoParseTime (s : List Char) : Option (Nat × Nat × Nat × Option Int) := do
  match parseDigits 2 0 s with
  | some (hh, r1) =>
    if hh ≥ 24 then Option.none else
    match r1 with
    | ':' :: r2 =>
      match parseDigits 2 0 r2 with
      | some (mi, r3) =>
        if mi ≥ 60 then Option.none else
        match r3 with
        | ':' :: r4 =>
          match parseDigits 2 0 r4 with
          | some (ss, r5) =>
            if ss ≥ 60 then Option.none else do
            let r6 ← isoSkipFrac r5
            let off ← isoParseOff r6
            pure (hh, mi, ss, off)
          | Option.none => Option.none
        | _ => do
          let off ← isoParseOff r3
          pure (hh, mi, 0, off)
      | Option.none => Option.none
    | _ => do
      let off ← isoParseOff r1
      pure (hh, 0, 0, off)
  | Option.none => Option.none

/-- Model of `datetime.fromisoformat`: `YYYY-MM-DD`, optionally a single
separator character and a time of day with optional UTC offset.  Returns
the datetime and, for an aware input, its offset in minutes. -/
def isoParse (s : List Char) : Option (DT × Option Int) := do
  match parseDigits 4 0 s with
  | some (y, '-' :: r1) =>
    match parseDigits 2 0 r1 with
    | some (mo, '-' :: r2) =>
      match parseDigits 2 0 r2 with
      | some (da, r3) =>
        if 1 ≤ y ∧ 1 ≤ mo ∧ mo ≤ 12 ∧ 1 ≤ da ∧ da ≤ daysInMonth y mo then
          match r3 with
          | [] => some (⟨y, mo, da, 0, 0, 0⟩, Option.none)
          | _ :: r4 => do
            let (hh, mi, ss, off) ← isoParseTime r4
            pure (⟨y, mo, da, hh, mi, ss⟩, off)
        else Option.none
      | _ => Option.none
    | _ => Option.none
  | _ => Option.none

/-- Zero-padded decimal of width `w` (`strftime` padding). -/
def padNum (w n : Nat) : List Char :=
  let ds := Nat.toDigits 10 n
  List.replicate (w - ds.length) '0' ++ ds

/-- Model of `strftime("%Y-%m-%d %H:%M:%S")`. -/
def dtFormat (t : DT) : List Char :=
  padNum 4 t.y ++ '-' :: padNum 2 t.m ++ '-' :: padNum 2 t.d ++
    ' ' :: padNum 2 t.hh ++ ':' :: padNum 2 t.mi ++ ':' :: padNum 2 t.ss

/-- Conversion to `Asia/Taipei` (fixed UTC+8): an aware datetime moves by
`480 - off` minutes; a naive one is interpreted at the system-local
offset `localOff` first, as `astimezone` does. -/
def astimezoneTaipei (localOff : Int) (t : DT) (off : Option Int) : DT :=
  shiftMinutes t (480 - off.getD localOff)

/-- The sentinel stored when the timestamp fails to parse
(`"無效時間"`, "invalid time"). -/
def invalidTime : List Char := chars "無效時間"

/-- Lines 96-103 of `main.py`: parse the timestamp, convert, format; on
any failure substitute the sentinel. -/
def formatTimestamp (localOff : Int) (ts : List Char) : List Char :=
  match isoParse ts with
  | some (t, off) => dtFormat (astimezoneTaipei localOff t off)
  | Option.none => invalidTime

/-! ## Raw `otd` extraction

Model of the `re.search` for the raw `otd` pattern over `json_str`, plus
the `json.loads` of the quoted capture group.  The starred group admits exactly one
alternative at every position, so the star is pure maximal munch and the
per-position match is deterministic. -/

/-- Maximal munch of `(?:\\.|[^"\\])*`: returns the consumed characters
and the rest. -/
def otdStar : List Char → List Char × List Char
  | [] => ([], [])
  | ['\\'] => ([], ['\\'])
  | '\\' :: c :: rest =>
    if c = '\n' then ([], '\\' :: c :: rest)
    else
      let p := otdStar rest
      ('\\' :: c :: p.1, p.2)
  | c :: rest =>
    if c = '"' ∨ c = '\\' then ([], c :: rest)
    else
      let p := otdStar rest
      (c :: p.1, p.2)

/-- Attempt the `otd` pattern at the head of `s`; returns capture group 1. -/
def otdAt (s : List Char) : Option (List Char) :=
  if (chars "\"otd\"").isPrefixOf s then
    let r1 := (s.drop 5).dropWhile pySpace
    match r1 with
    | ':' :: r2 =>
      match r2.dropWhile pySpace with
      | '"' :: r3 =>
        let p := otdStar r3
        match p.2 with
        | '"' :: _ => some p.1
        | _ => Option.none
      | _ => Option.none
    | _ => Option.none
  else Option.none

/-- Model of `re.search`: leftmost position at which the pattern matches. -/
def otdSearch : List Char → Option (List Char)
  | [] => Option.none
  | c :: rest =>
    match otdAt (c :: rest) with
    | some g => some g
    | Option.none => otdSearch rest

/-- Lines 112-122 of `main.py`: the raw `otd` group decoded as a JSON
string literal by `json.loads` after re-quoting; empty on absence or failure. -/
def rawOtdOf (js : List Char) : List Char :=
  match otdSearch js with
  | some g =>
    match parseJString (g.length + 2) [] (g ++ ['"']) with
    | some (decoded, []) => decoded
    | _ => []
  | Option.none => []

/-! ## Record construction -/

/-- The `"未知"` ("unknown") default of `dict.get` in lines 128-129. -/
def unknownVal : PyVal := .str (chars "未知")

/-- A parsed log record (`MasaLogEntry` in `main.py`).  `user_agent` and
`ip_address` hold whatever Python value the JSON carried (the code
applies no conversion), and `post_params` holds the entries of the
`post_params` object. -/
structure MasaLogEntry where
  timestamp : List Char
  post_params : List (List Char × PyVal)
  user_agent : PyVal
  ip_address : PyVal
  raw_otd : List Char

/-- Model of `dict.get(k)` on a decoded JSON object: keys are unique by
construction, so the first hit is the value. -/
def jget (es : List (List Char × PyVal)) (k : List Char) : Option PyVal :=
  (es.find? (fun e => e.1 == k)).map Prod.snd

/-- Entries of a decoded value known to be an object.  The matched
`json_str` always starts with `{`, so a successful `json.loads` yields a
dict; other shapes are unreachable. -/
def asDict : PyVal → List (List Char × PyVal)
  | .dict es => es
  | _ => []

/-- Lines 105-110 of `main.py`: the parsed JSON object, or the
`{"error": "無效 JSON"}` placeholder when `json.loads` fails. -/
def loadObj (js : List Char) : List (List Char × PyVal) :=
  match jsonLoads js with
  | some v => asDict v
  | Option.none => [(chars "error", PyVal.str (chars "無效 JSON"))]

/-- Lines 124-131 of `main.py`: build the record from the formatted
timestamp, the JSON object and the raw `otd`. -/
def entryFromData (tsf : List Char) (data : List (List Char × PyVal)) (rawOtd : List Char) :
    MasaLogEntry :=
  { timestamp := tsf
    post_params := asDict ((jget data (chars "post_params")).getD (PyVal.dict []))
    user_agent := (jget data (chars "user_agent")).getD unknownVal
    ip_address := (jget data (chars "ip_address")).getD unknownVal
    raw_otd := rawOtd }

/-- One iteration of the parsing loop in `MasaLogAPIThread.run`: `none`
when the line does not match (the line is skipped), otherwise the record
appended to `parsed_list`. -/
def processLine (localOff : Int) (line : List Char) : Option MasaLogEntry :=
  match matchLine line with
  | some (ts, js) => some (entryFromData (formatTimestamp localOff ts) (loadObj js) (rawOtdOf js))
  | Option.none => Option.none

/-- The whole parsing loop over the response lines. -/
def extractRecords (localOff : Int) (lines : List (List Char)) : List MasaLogEntry :=
  lines.filterMap (processLine localOff)

/-! ## Filter conditions and the filter engine -/

/-- The `FilterEntry` dataclass of `main.py` (`include` is a Lean keyword, so
the field is named `includeMode`; `blur` is the fuzzy-search flag). -/
structure FilterEntry where
  id : Nat
  key : List Char
  value : List Char
  includeMode : Bool
  blur : Bool
  deriving DecidableEq

/-- One condition row of the filter UI: the texts currently in its two
`QLineEdit`s and the states of its two checkboxes. -/
structure UiRow where
  key : List Char
  value : List Char
  includeMode : Bool
  blur : Bool
  deriving DecidableEq

/-- Lines 496-518 of `_apply_filters`: walk the layout rows in order,
strip the texts, keep only rows with nonempty key and value, and give
each kept condition the layout index `i` as its id. -/
def readConditionsFrom (i : Nat) : List UiRow → List FilterEntry
  | [] => []
  | r :: rs =>
    let k := pyStrip r.key
    let v := pyStrip r.value
    if k ≠ [] ∧ v ≠ [] then
      ⟨i, k, v, r.includeMode, r.blur⟩ :: readConditionsFrom (i + 1) rs
    else readConditionsFrom (i + 1) rs

/-- The conditions read back from the whole layout. -/
def readConditions (rows : List UiRow) : List FilterEntry :=
  readConditionsFrom 0 rows

/-- Python's `needle in hay` on strings: substring containment (the
empty string is contained in everything). -/
def strIn (needle hay : List Char) : Bool :=
  needle.isPrefixOf hay ||
    match hay with
    | [] => false
    | _ :: t => strIn needle t

/-- Model of `MasaLogViewer._entry_matches_condition` (lines 570-575): substring
containment when `blur`, equality otherwise, negated when the condition
is an exclusion. -/
def entryMatchesCondition (e : FilterEntry) (value : List Char) : Bool :=
  let result := if e.blur then strIn e.value value else e.value == value
  if e.includeMode then result else !result

/-- Model of `str(record.post_params.get(key, ""))` of line 530. -/
def recordValue (rec : MasaLogEntry) (k : List Char) : List Char :=
  pyStr ((jget rec.post_params k).getD (PyVal.str []))

/-- Insertion-order deduplication: the key sequence of the
`defaultdict(list)` grouping in lines 522-525. -/
def dedupKeys (ks : List (List Char)) : List (List Char) :=
  ks.foldl (fun acc k => if acc.contains k then acc else acc ++ [k]) []

/-- The distinct keys of the grouped conditions, in first-seen order. -/
def groupKeys (conds : List FilterEntry) : List (List Char) :=
  dedupKeys (conds.map FilterEntry.key)

/-- Model of `record_matches` of lines 528-533: for every key group, some
condition of the group accepts the record's value for that key. -/
def recordMatches (conds : List FilterEntry) (rec : MasaLogEntry) : Bool :=
  (groupKeys conds).all fun k =>
    (conds.filter (fun c => c.key == k)).any fun c =>
      entryMatchesCondition c (recordValue rec k)

/-- Lines 535-537: the condition pass is applied only when the condition
list is nonempty. -/
def keyValueFilter (conds : List FilterEntry) (recs : List MasaLogEntry) : List MasaLogEntry :=
  if conds.isEmpty then recs else recs.filter (recordMatches conds)

/-! ## Time filtering

Model of lines 539-562.  `datetime.strptime(val, "%Y-%m-%d %H:%M:%S")`
is modelled after CPython's `_strptime` regexes: `%Y` is exactly four
digits, the other fields accept one or two digits within their patterns,
the whole string must be consumed, and the resulting tuple must be a
valid datetime. -/

/-- A field of one or two digits: two digits are taken when their value
lies within the field's two-digit pattern, otherwise one digit within the
one-digit pattern (this reproduces the CPython alternations such as
`2[0-3]|[0-1]\d|\d`). -/
def parse2or1 (lo2 hi2 lo1 hi1 : Nat) : List Char → Option (Nat × List Char)
  | c1 :: c2 :: rest =>
    if c1.isDigit ∧ c2.isDigit ∧
        lo2 ≤ (c1.toNat - 48) * 10 + (c2.toNat - 48) ∧
        (c1.toNat - 48) * 10 + (c2.toNat - 48) ≤ hi2 then
      some ((c1.toNat - 48) * 10 + (c2.toNat - 48), rest)
    else if c1.isDigit ∧ lo1 ≤ c1.toNat - 48 ∧ c1.toNat - 48 ≤ hi1 then
      some (c1.toNat - 48, c2 :: rest)
    else Option.none
  | [c1] =>
    if c1.isDigit ∧ lo1 ≤ c1.toNat - 48 ∧ c1.toNat - 48 ≤ hi1 then
      some (c1.toNat - 48, [])
    else Option.none
  | [] => Option.none

/-- Model of `datetime.strptime(val, "%Y-%m-%d %H:%M:%S")`: `none` is the
`except` branch of `to_dt`. -/
def strptimeYmdHms (s : List Char) : Option DT := do
  match parseDigits 4 0 s with
  | some (y, '-' :: r1) =>
    match parse2or1 1 12 1 9 r1 with
    | some (mo, '-' :: r2) =>
      match parse2or1 1 31 1 9 r2 with
      | some (da, ' ' :: r3) =>
        match parse2or1 0 23 0 9 r3 with
        | some (hh, ':' :: r4) =>
          match parse2or1 0 59 0 9 r4 with
          | some (mi, ':' :: r5) =>
            match parse2or1 0 61 0 9 r5 with
            | some (ss, []) =>
              if 1 ≤ y ∧ da ≤ daysInMonth y mo ∧ ss ≤ 59 then
                some ⟨y, mo, da, hh, mi, ss⟩
              else Option.none
            | _ => Option.none
          | _ => Option.none
        | _ => Option.none
      | _ => Option.none
    | _ => Option.none
  | _ => Option.none

/-- Chronological order on valid datetimes: lexicographic on the civil
tuple, encoded through a strictly monotone key (all fields are within
their calendar bounds when produced by `strptime`). -/
def dtKey (t : DT) : Nat :=
  ((((t.y * 16 + t.m) * 32 + t.d) * 32 + t.hh) * 64 + t.mi) * 64 + t.ss

/-- Model of the `datetime` comparison `<=`. -/
def dtLe (a b : DT) : Bool := dtKey a ≤ dtKey b

/-- The `TimeFilter` enum of `main.py`. -/
inductive TimeFilter where
  | all
  | beforeTime
  | afterTime
  | timeRange
  deriving DecidableEq

/-- Lines 539-562: the secondary time predicate.  A record whose
timestamp `strptime` rejects yields `None`, which is falsy, so the
record is excluded by every non-`ALL` branch. -/
def timeFilterApply (tf : TimeFilter) (beforeB afterB startB endB : DT)
    (recs : List MasaLogEntry) : List MasaLogEntry :=
  match tf with
  | .all => recs
  | .beforeTime =>
    recs.filter fun r =>
      match strptimeYmdHms r.timestamp with
      | some dt => dtLe dt beforeB
      | Option.none => false
  | .afterTime =>
    recs.filter fun r =>
      match strptimeYmdHms r.timestamp with
      | some dt => dtLe afterB dt
      | Option.none => false
  | .timeRange =>
    recs.filter fun r =>
      match strptimeYmdHms r.timestamp with
      | some dt => dtLe startB dt && dtLe dt endB
      | Option.none => false

/-! ## Sorting and pagination -/

/-- The `SortOrder` enum of `main.py`. -/
inductive SortOrder where
  | newestFirst
  | oldestFirst
  deriving DecidableEq

/-- The comparison realised by `sort(key=lambda x: x.timestamp,
reverse=...)`: with `reverse=True` the order is flipped while ties keep
their original relative order. -/
def sortLe (o : SortOrder) (a b : MasaLogEntry) : Bool :=
  match o with
  | .newestFirst => tsLe b.timestamp a.timestamp
  | .oldestFirst => tsLe a.timestamp b.timestamp

/-- Line 564-566: Python `list.sort` is stable, and a stable sort with
respect to a total preorder has a unique result, realised here by
`mergeSort`. -/
def sortRecords (o : SortOrder) (recs : List MasaLogEntry) : List MasaLogEntry :=
  recs.mergeSort (sortLe o)

/-- The record pipeline of `_apply_filters` (lines 490-566): key/value
conditions read from the rows, then the time predicate, then the sort. -/
def applyFiltersData (rows : List UiRow) (tf : TimeFilter) (beforeB afterB startB endB : DT)
    (o : SortOrder) (parsed : List MasaLogEntry) : List MasaLogEntry :=
  sortRecords o (timeFilterApply tf beforeB afterB startB endB
    (keyValueFilter (readConditions rows) parsed))

/-- Model of `math.ceil(len / page_size)` under `max 1` (line 602; exact for the
list sizes at hand, where float rounding cannot bite). -/
def totalPagesOf (n pageSize : Nat) : Nat := max 1 ((n + pageSize - 1) / pageSize)

/-- The `QSpinBox` range clamp: pages live in `[1, total_pages]`. -/
def clampPage (n pageSize page : Nat) : Nat := max 1 (min page (totalPagesOf n pageSize))

/-- Lines 618-620 of `_display_data`: the slice of the current page. -/
def paginate (recs : List MasaLogEntry) (pageSize page : Nat) : List MasaLogEntry :=
  let p := clampPage recs.length pageSize page
  (recs.drop ((p - 1) * pageSize)).take pageSize

/-! ## The mutable filter-row state

Model of the `MasaLogViewer` state touched by `_add_filter_entry`,
`_remove_filter_entry`, `_apply_filters` and `_clear_filters`:
`filter_entries`, the layout rows with their `filter_layout_map` ids, and
`_filter_id_counter`. -/

structure FState where
  filterIdCounter : Nat
  filterEntries : List FilterEntry
  rows : List (Nat × UiRow)
  deriving DecidableEq

/-- The initial state set up in `__init__`. -/
def initFState : FState := ⟨0, [], []⟩

/-- Model of `_add_filter_entry`: a fresh row is appended with the counter as its
map id; the captured `FilterEntry` reads the widgets at creation time
(empty texts, include checked, blur unchecked).  `r` is the content the
user subsequently types into the row's widgets. -/
def addFilterEntry (st : FState) (r : UiRow) : FState :=
  { filterIdCounter := st.filterIdCounter + 1
    filterEntries := st.filterEntries ++ [⟨st.filterIdCounter, [], [], true, false⟩]
    rows := st.rows ++ [(st.filterIdCounter, r)] }

/-- The state effect of `_apply_filters`: `filter_entries` is rebuilt
from the layout rows, with layout indices as ids. -/
def applyFiltersState (st : FState) : FState :=
  { st with filterEntries := readConditions (st.rows.map Prod.snd) }

/-- Model of `_remove_filter_entry`: drop the entry and the row with the given id,
then re-apply. -/
def removeFilterEntry (st : FState) (entryId : Nat) : FState :=
  applyFiltersState
    { st with
      filterEntries := st.filterEntries.filter (fun e => e.id ≠ entryId)
      rows := st.rows.filter (fun p => p.1 ≠ entryId) }

/-- Model of `_clear_filters`: everything cleared, the counter reset, then
re-apply. -/
def clearFilters (_ : FState) : FState :=
  applyFiltersState ⟨0, [], []⟩

/-! ## Spec-side definition for claim C4 -/

/-- Modelled from the spec: the "percent-decoded" transformation that
section 4.1 step 5 ascribes to `user_agent` — standard URL decoding of
`%XX` hexadecimal escapes.  `main.py` contains no such decoding; this
definition exists only to compare the spec's words with the code. -/
def percentDecodeSpec : List Char → List Char
  | '%' :: c1 :: c2 :: rest =>
    match hexVal c1, hexVal c2 with
    | some a, some b => Char.ofNat (a * 16 + b) :: percentDecodeSpec rest
    | _, _ => '%' :: percentDecodeSpec (c1 :: c2 :: rest)
  | c :: rest => c :: percentDecodeSpec rest
  | [] => []

/-! ## Claims C4, C5, C6: the extraction pipeline -/

/-- Claim C4 (counterexample): a matched line whose `user_agent` carries
the escape `%20` is extracted verbatim; the percent-decoded value
differs, so the extractor does not percent-decode `user_agent`. -/
theorem user_agent_kept_verbatim :
    (extractRecords 480 [chars "[2024-01-01T10:00:00+08:00] x POST Request Details \x7b\"post_params\": \x7b\x7d, \"user_agent\": \"a%20b\", \"ip_address\": \"1.2.3.4\"\x7d []"]).map
        (fun e => e.user_agent) = [PyVal.str (chars "a%20b")]
    ∧ percentDecodeSpec (chars "a%20b") = chars "a b"
    ∧ chars "a%20b" ≠ chars "a b" :=
  ⟨rfl, rfl, by decide⟩

/-- Claim C4 (amended): for every matched line whose JSON parses, the
record's `user_agent` is the raw (not percent-decoded) value of the
parsed object's `user_agent` entry, defaulting to the `"未知"`
("unknown") sentinel when absent; `post_params` defaults to the empty
object and `ip_address` to the same sentinel. -/
theorem extraction_field_defaults (localOff : Int) (line ts js : List Char) (j : PyVal)
    (hm : matchLine line = some (ts, js)) (hj : jsonLoads js = some j) :
    ∃ e, processLine localOff line = some e
      ∧ e.user_agent = (jget (asDict j) (chars "user_agent")).getD (PyVal.str (chars "未知"))
      ∧ e.ip_address = (jget (asDict j) (chars "ip_address")).getD (PyVal.str (chars "未知"))
      ∧ e.post_params = asDict ((jget (asDict j) (chars "post_params")).getD (PyVal.dict [])) := by
  refine ⟨entryFromData (formatTimestamp localOff ts) (loadObj js) (rawOtdOf js), ?_, ?_, ?_, ?_⟩
  · simp [processLine, hm]
  · simp [entryFromData, loadObj, hj, unknownVal]
  · simp [entryFromData, loadObj, hj, unknownVal]
  · simp [entryFromData, loadObj, hj]

/-- Witness for `extraction_field_defaults` at a concrete line whose
JSON omits `user_agent` and `ip_address`. -/
theorem extraction_field_defaults_witness :
    ∃ e,
      processLine 480 (chars "[2024-01-01T10:00:00+08:00] x POST Request Details \x7b\"post_params\": \x7b\"k\": \"v\"\x7d\x7d []") = some e
      ∧ e.user_agent = (jget (asDict (PyVal.dict [(chars "post_params", PyVal.dict [(chars "k", PyVal.str (chars "v"))])])) (chars "user_agent")).getD (PyVal.str (chars "未知"))
      ∧ e.ip_address = (jget (asDict (PyVal.dict [(chars "post_params", PyVal.dict [(chars "k", PyVal.str (chars "v"))])])) (chars "ip_address")).getD (PyVal.str (chars "未知"))
      ∧ e.post_params = asDict ((jget (asDict (PyVal.dict [(chars "post_params", PyVal.dict [(chars "k", PyVal.str (chars "v"))])])) (chars "post_params")).getD (PyVal.dict [])) :=
  extraction_field_defaults 480 _ (chars "2024-01-01T10:00:00+08:00")
    (chars "\x7b\"post_params\": \x7b\"k\": \"v\"\x7d\x7d")
    (PyVal.dict [(chars "post_params", PyVal.dict [(chars "k", PyVal.str (chars "v"))])])
    rfl rfl

/-- Claim C5: a matched timestamp that `fromisoformat` accepts with an
explicit UTC offset is converted to fixed UTC+8 and formatted as
`YYYY-MM-DD HH:MM:SS`, whatever the system-local offset; and the spec's
example line yields exactly one record with timestamp
`2024-01-01 10:00:00` and fields `{a: "1"}`. -/
theorem timestamp_converted_to_taipei :
    (∀ (localOff : Int) (ts : List Char) (t : DT) (off : Int),
      isoParse ts = some (t, some off) →
      formatTimestamp localOff ts = dtFormat (shiftMinutes t (480 - off)))
    ∧ extractRecords 480 [chars "[2024-01-01T10:00:00+08:00] ... POST Request Details \x7b\"post_params\": \x7b\"a\": \"1\"\x7d, \"user_agent\": \"x\", \"ip_address\": \"1.2.3.4\"\x7d []"]
      = [⟨chars "2024-01-01 10:00:00", [(chars "a", PyVal.str (chars "1"))],
          PyVal.str (chars "x"), PyVal.str (chars "1.2.3.4"), []⟩] := by
  constructor
  · intro localOff ts t off h
    simp [formatTimestamp, h, astimezoneTaipei]
  · rfl

/-- Witness for `timestamp_converted_to_taipei`: a UTC instant half an
hour before a month boundary lands on the next Taipei day. -/
theorem timestamp_converted_to_taipei_witness :
    formatTimestamp 0 (chars "2024-03-31T23:30:00+00:00")
      = dtFormat (shiftMinutes ⟨2024, 3, 31, 23, 30, 0⟩ (480 - 0))
    ∧ formatTimestamp 0 (chars "2024-03-31T23:30:00+00:00") = chars "2024-04-01 07:30:00" :=
  ⟨timestamp_converted_to_taipei.1 0 (chars "2024-03-31T23:30:00+00:00")
      ⟨2024, 3, 31, 23, 30, 0⟩ 0 rfl, rfl⟩

/-- Claim C6: a line matching the outer shape always contributes exactly
one record, in place; an unparseable timestamp becomes the `"無效時間"`
sentinel, and an unparseable JSON payload is replaced by the error
placeholder object, leaving empty fields and default `user_agent` /
`ip_address` — the record is not dropped and surrounding lines are
unaffected. -/
theorem matched_line_always_emits (localOff : Int) (pre post : List (List Char))
    (line ts js : List Char) (hm : matchLine line = some (ts, js)) :
    extractRecords localOff (pre ++ line :: post)
      = extractRecords localOff pre
        ++ entryFromData (formatTimestamp localOff ts) (loadObj js) (rawOtdOf js)
          :: extractRecords localOff post
    ∧ (isoParse ts = Option.none → formatTimestamp localOff ts = invalidTime)
    ∧ (jsonLoads js = Option.none →
        loadObj js = [(chars "error", PyVal.str (chars "無效 JSON"))]
        ∧ (entryFromData (formatTimestamp localOff ts) (loadObj js) (rawOtdOf js)).post_params = []
        ∧ (entryFromData (formatTimestamp localOff ts) (loadObj js) (rawOtdOf js)).user_agent = unknownVal
        ∧ (entryFromData (formatTimestamp localOff ts) (loadObj js) (rawOtdOf js)).ip_address = unknownVal) := by
  refine ⟨?_, ?_, ?_⟩
  · simp [extractRecords, List.filterMap_append, processLine, hm]
  · intro h; simp [formatTimestamp, h]
  · intro h
    have hobj : loadObj js = [(chars "error", PyVal.str (chars "無效 JSON"))] := by
      simp [loadObj, h]
    refine ⟨hobj, ?_, ?_, ?_⟩ <;> rw [hobj] <;> rfl

/-! ## Claims C1 and C9: the filter engine -/

/-- Membership in the insertion-order dedup underlying the key grouping. -/
theorem mem_dedupFold (ks : List (List Char)) :
    ∀ (acc : List (List Char)) (x : List Char),
      (x ∈ ks.foldl (fun a k => if a.contains k then a else a ++ [k]) acc) ↔
        x ∈ acc ∨ x ∈ ks := by
  induction ks with
  | nil => intro acc x; simp
  | cons k ks ih =>
    intro acc x
    simp only [List.foldl_cons]
    rw [ih]
    by_cases hk : k ∈ acc
    · have : acc.contains k = true := by
        simpa [List.contains] using List.elem_iff.mpr hk
      rw [if_pos this]
      simp only [List.mem_cons]
      constructor
      · rintro (h | h)
        · exact Or.inl h
        · exact Or.inr (Or.inr h)
      · rintro (h | h | h)
        · exact Or.inl h
        · exact Or.inl (h ▸ hk)
        · exact Or.inr h
    · have hcf : ¬ (acc.contains k = true) := by
        simp only [List.contains]
        intro habs
        exact hk (List.elem_iff.mp habs)
      rw [if_neg hcf]
      simp [List.mem_append, List.mem_cons, or_assoc]

/-- Membership in `dedupKeys` is membership in the original key list. -/
theorem mem_dedupKeys {ks : List (List Char)} {x : List Char} :
    x ∈ dedupKeys ks ↔ x ∈ ks := by
  unfold dedupKeys
  rw [mem_dedupFold]
  simp

/-- Characterisation of `record_matches`: true exactly when every key
carried by some condition has a condition of its group accepting the
record's value. -/
theorem recordMatches_iff (conds : List FilterEntry) (rec : MasaLogEntry) :
    recordMatches conds rec = true ↔
      ∀ k, (∃ c ∈ conds, c.key = k) →
        ∃ c ∈ conds, c.key = k ∧ entryMatchesCondition c (recordValue rec k) = true := by
  unfold recordMatches groupKeys
  rw [List.all_eq_true]
  constructor
  · intro h k hk
    obtain ⟨c, hc, hkey⟩ := hk
    have hkmem : k ∈ dedupKeys (conds.map FilterEntry.key) :=
      mem_dedupKeys.mpr (List.mem_map.mpr ⟨c, hc, hkey⟩)
    have := h k hkmem
    rw [List.any_eq_true] at this
    obtain ⟨c', hc', hm⟩ := this
    rw [List.mem_filter] at hc'
    exact ⟨c', hc'.1, by simpa using hc'.2, hm⟩
  · intro h k hkmem
    rw [List.any_eq_true]
    have hk : k ∈ conds.map FilterEntry.key := mem_dedupKeys.mp hkmem
    obtain ⟨c, hc, hkey⟩ := List.mem_map.mp hk
    obtain ⟨c', hc', hkey', hm⟩ := h k ⟨c, hc, hkey⟩
    exact ⟨c', List.mem_filter.mpr ⟨hc', by simpa using hkey'⟩, hm⟩

/-- Claim C1: the filter engine keeps a record iff, for every distinct
key occurring among the conditions read from the rows (inert rows having
been dropped), at least one condition of that key's group matches the
record's stringified value for that key — AND across keys, OR within a
key's group, each condition judged by `_entry_matches_condition`. -/
theorem filter_engine_keeps_iff (rows : List UiRow) (R : List MasaLogEntry)
    (rec : MasaLogEntry) :
    rec ∈ keyValueFilter (readConditions rows) R ↔
      rec ∈ R ∧ ∀ k, (∃ c ∈ readConditions rows, c.key = k) →
        ∃ c ∈ readConditions rows, c.key = k
          ∧ entryMatchesCondition c (recordValue rec k) = true := by
  unfold keyValueFilter
  by_cases h : (readConditions rows).isEmpty
  · rw [if_pos h]
    have hnil : readConditions rows = [] := List.isEmpty_iff.mp h
    simp [hnil]
  · rw [if_neg h, List.mem_filter, recordMatches_iff]

/-- Witness for `filter_engine_keeps_iff`: the spec's own example — two
include/exact conditions on key `a` with values `1` and `2`; the record
with `a = "1"` is kept (OR within the key group) and the record with
`a = "3"` is excluded. -/
theorem filter_engine_keeps_iff_witness :
    (⟨[], [(chars "a", PyVal.str (chars "1"))], PyVal.none, PyVal.none, []⟩ : MasaLogEntry) ∈
      keyValueFilter
        (readConditions [⟨chars "a", chars "1", true, false⟩, ⟨chars "a", chars "2", true, false⟩])
        [⟨[], [(chars "a", PyVal.str (chars "1"))], PyVal.none, PyVal.none, []⟩] := by
  refine (filter_engine_keeps_iff
    [⟨chars "a", chars "1", true, false⟩, ⟨chars "a", chars "2", true, false⟩]
    [⟨[], [(chars "a", PyVal.str (chars "1"))], PyVal.none, PyVal.none, []⟩]
    ⟨[], [(chars "a", PyVal.str (chars "1"))], PyVal.none, PyVal.none, []⟩).mpr ⟨?_, ?_⟩
  · exact List.mem_singleton.mpr rfl
  · intro k hk
    obtain ⟨c, hc, hkey⟩ := hk
    have hcs : readConditions [⟨chars "a", chars "1", true, false⟩, ⟨chars "a", chars "2", true, false⟩]
        = [⟨0, chars "a", chars "1", true, false⟩, ⟨1, chars "a", chars "2", true, false⟩] := rfl
    rw [hcs] at hc ⊢
    have hka : k = chars "a" := by
      rcases List.mem_cons.mp hc with h1 | h1
      · rw [h1] at hkey; exact hkey.symm
      · rcases List.mem_cons.mp h1 with h2 | h2
        · rw [h2] at hkey; exact hkey.symm
        · cases h2
    refine ⟨⟨0, chars "a", chars "1", true, false⟩, List.mem_cons_self _ _, hka ▸ rfl, ?_⟩
    rw [hka]
    rfl

/-- The id-free content of a condition: matching never reads the id. -/
def condData (c : FilterEntry) : List Char × List Char × Bool × Bool :=
  (c.key, c.value, c.includeMode, c.blur)

/-- Restatement of `_entry_matches_condition` over the id-free content. -/
def matchData (d : List Char × List Char × Bool × Bool) (v : List Char) : Bool :=
  let result := if d.2.2.2 then strIn d.2.1 v else d.2.1 == v
  if d.2.2.1 then result else !result

/-- Unfolded form of `any` over the mapped id-free contents. -/
theorem any_over_condData (conds : List FilterEntry)
    (g : List Char × List Char × Bool × Bool → Bool) :
    (conds.map condData).any g = conds.any (fun c => g (condData c)) := by
  induction conds with
  | nil => rfl
  | cons c cs ih => simp [List.any_cons, ih]

/-- The function `record_matches` only reads the id-free content of the conditions. -/
theorem recordMatches_eq_data (conds : List FilterEntry) (rec : MasaLogEntry) :
    recordMatches conds rec =
      (dedupKeys ((conds.map condData).map Prod.fst)).all fun k =>
        (conds.map condData).any fun d => (d.1 == k) && matchData d (recordValue rec k) := by
  unfold recordMatches groupKeys
  have h1 : (conds.map condData).map Prod.fst = conds.map FilterEntry.key := by
    rw [List.map_map]; rfl
  rw [h1]
  apply congrArg
  funext k
  rw [List.any_filter, any_over_condData]
  rfl

/-- Condition lists with equal id-free content filter records equally. -/
theorem keyValueFilter_data_congr {conds conds' : List FilterEntry}
    (h : conds.map condData = conds'.map condData) (R : List MasaLogEntry) :
    keyValueFilter conds R = keyValueFilter conds' R := by
  unfold keyValueFilter
  have hempty : conds.isEmpty = conds'.isEmpty := by
    cases conds <;> cases conds' <;> simp_all
  rw [hempty]
  by_cases he : conds'.isEmpty
  · rw [if_pos he, if_pos he]
  · rw [if_neg he, if_neg he]
    apply List.filter_congr
    intro rec _
    rw [recordMatches_eq_data, recordMatches_eq_data, h]

/-- Layout indices do not influence the id-free content of the
conditions read back from the rows. -/
theorem readConditionsFrom_data_irrel (rows : List UiRow) :
    ∀ i j, (readConditionsFrom i rows).map condData = (readConditionsFrom j rows).map condData := by
  induction rows with
  | nil => intro i j; rfl
  | cons r rs ih =>
    intro i j
    unfold readConditionsFrom
    by_cases h : pyStrip r.key ≠ [] ∧ pyStrip r.value ≠ []
    · rw [if_pos h, if_pos h]
      simp only [List.map_cons]
      rw [ih (i + 1) (j + 1)]
      rfl
    · rw [if_neg h, if_neg h]
      exact ih (i + 1) (j + 1)

/-- Rows that strip to an empty key or value (inert rows). -/
def nonInert (r : UiRow) : Bool :=
  !(pyStrip r.key).isEmpty && !(pyStrip r.value).isEmpty

/-- Dropping the inert rows first does not change the id-free content of
the conditions read back. -/
theorem readConditionsFrom_filter_data (rows : List UiRow) :
    ∀ i, (readConditionsFrom i (rows.filter nonInert)).map condData
      = (readConditionsFrom i rows).map condData := by
  induction rows with
  | nil => intro i; rfl
  | cons r rs ih =>
    intro i
    by_cases h : pyStrip r.key ≠ [] ∧ pyStrip r.value ≠ []
    · have hni : nonInert r = true := by
        simp [nonInert, List.isEmpty_iff]
        exact h
      rw [List.filter_cons_of_pos hni]
      unfold readConditionsFrom
      rw [if_pos h, if_pos h]
      simp only [List.map_cons]
      rw [ih (i + 1)]
    · have hni : ¬ (nonInert r = true) := by
        simp [nonInert, List.isEmpty_iff]
        intro h1
        by_contra h2
        exact h ⟨h1, h2⟩
      rw [List.filter_cons_of_neg hni]
      conv_rhs => unfold readConditionsFrom
      rw [if_neg h]
      rw [ih i]
      exact readConditionsFrom_data_irrel rs i (i + 1)

/-- Rows that are all inert read back to no conditions at all. -/
theorem readConditionsFrom_nil_of_inert (rows : List UiRow) :
    ∀ i, (∀ r ∈ rows, pyStrip r.key = [] ∨ pyStrip r.value = []) →
      readConditionsFrom i rows = [] := by
  induction rows with
  | nil => intro i _; rfl
  | cons r rs ih =>
    intro i h
    unfold readConditionsFrom
    have : ¬ (pyStrip r.key ≠ [] ∧ pyStrip r.value ≠ []) := by
      rcases h r (List.mem_cons_self r rs) with h1 | h1
      · intro hc; exact hc.1 h1
      · intro hc; exact hc.2 h1
    rw [if_neg this]
    exact ih (i + 1) (fun r' hr' => h r' (List.mem_cons_of_mem r hr'))

/-- Claim C9: conditions with empty (stripped) key or value are ignored
by filter application, and when every row is inert — in particular when
there are no rows at all — the records pass through unchanged. -/
theorem empty_conditions_pass_all :
    (∀ (rows : List UiRow) (R : List MasaLogEntry),
      (∀ r ∈ rows, pyStrip r.key = [] ∨ pyStrip r.value = []) →
      keyValueFilter (readConditions rows) R = R)
    ∧ (∀ (rows : List UiRow) (R : List MasaLogEntry),
      keyValueFilter (readConditions (rows.filter nonInert)) R
        = keyValueFilter (readConditions rows) R) := by
  constructor
  · intro rows R h
    rw [readConditions, readConditionsFrom_nil_of_inert rows 0 h]
    rfl
  · intro rows R
    exact keyValueFilter_data_congr (readConditionsFrom_filter_data rows 0) R

/-- Witness for `empty_conditions_pass_all`: two inert rows (blank key,
blank value) leave a one-record list untouched. -/
theorem empty_conditions_pass_all_witness :
    keyValueFilter
      (readConditions [⟨chars "  ", chars "x", true, false⟩, ⟨chars "k", chars "", false, true⟩])
      [⟨chars "t", [], PyVal.none, PyVal.none, []⟩]
      = [⟨chars "t", [], PyVal.none, PyVal.none, []⟩] :=
  empty_conditions_pass_all.1
    [⟨chars "  ", chars "x", true, false⟩, ⟨chars "k", chars "", false, true⟩]
    [⟨chars "t", [], PyVal.none, PyVal.none, []⟩]
    (by decide)

/-- Witness for `matched_line_always_emits`: a line whose timestamp and
JSON are both malformed still emits its record. -/
theorem matched_line_always_emits_witness :
    extractRecords 480 ([] ++ chars "[nope] POST Request Details \x7bbad\x7d []" :: [])
      = extractRecords 480 []
        ++ entryFromData (formatTimestamp 480 (chars "nope")) (loadObj (chars "\x7bbad\x7d"))
            (rawOtdOf (chars "\x7bbad\x7d")) :: extractRecords 480 []
    ∧ (isoParse (chars "nope") = Option.none → formatTimestamp 480 (chars "nope") = invalidTime)
    ∧ (jsonLoads (chars "\x7bbad\x7d") = Option.none →
        loadObj (chars "\x7bbad\x7d") = [(chars "error", PyVal.str (chars "無效 JSON"))]
        ∧ (entryFromData (formatTimestamp 480 (chars "nope")) (loadObj (chars "\x7bbad\x7d"))
            (rawOtdOf (chars "\x7bbad\x7d"))).post_params = []
        ∧ (entryFromData (formatTimestamp 480 (chars "nope")) (loadObj (chars "\x7bbad\x7d"))
            (rawOtdOf (chars "\x7bbad\x7d"))).user_agent = unknownVal
        ∧ (entryFromData (formatTimestamp 480 (chars "nope")) (loadObj (chars "\x7bbad\x7d"))
            (rawOtdOf (chars "\x7bbad\x7d"))).ip_address = unknownVal) :=
  matched_line_always_emits 480 [] [] (chars "[nope] POST Request Details \x7bbad\x7d []")
    (chars "nope") (chars "\x7bbad\x7d") rfl

/-! ## Claim C10: non-ALL time filters drop unparseable timestamps -/

/-- Claim C10: whenever a time filter other than ALL is active, every
record whose timestamp `strptime` rejects — in particular the
`"無效時間"` sentinel — is excluded from the filtered result, whatever
the key/value conditions, bounds and sort order. -/
theorem time_filter_drops_unparseable :
    strptimeYmdHms invalidTime = Option.none
    ∧ ∀ (rows : List UiRow) (tf : TimeFilter) (beforeB afterB startB endB : DT)
        (o : SortOrder) (parsed : List MasaLogEntry) (rec : MasaLogEntry),
        tf ≠ TimeFilter.all → strptimeYmdHms rec.timestamp = Option.none →
        rec ∉ applyFiltersData rows tf beforeB afterB startB endB o parsed := by
  refine ⟨rfl, ?_⟩
  intro rows tf beforeB afterB startB endB o parsed rec htf hts hmem
  unfold applyFiltersData sortRecords at hmem
  rw [List.mem_mergeSort] at hmem
  cases tf with
  | all => exact htf rfl
  | beforeTime =>
    rw [timeFilterApply, List.mem_filter, hts] at hmem
    exact Bool.false_ne_true hmem.2
  | afterTime =>
    rw [timeFilterApply, List.mem_filter, hts] at hmem
    exact Bool.false_ne_true hmem.2
  | timeRange =>
    rw [timeFilterApply, List.mem_filter, hts] at hmem
    exact Bool.false_ne_true hmem.2

/-- Witness for `time_filter_drops_unparseable`: the sentinel record is
dropped by a BEFORE_TIME filter even though no key/value condition
excludes it. -/
theorem time_filter_drops_unparseable_witness :
    (⟨invalidTime, [], PyVal.none, PyVal.none, []⟩ : MasaLogEntry) ∉
      applyFiltersData [] TimeFilter.beforeTime ⟨2024, 1, 1, 0, 0, 0⟩ ⟨2024, 1, 1, 0, 0, 0⟩
        ⟨2024, 1, 1, 0, 0, 0⟩ ⟨2024, 1, 1, 0, 0, 0⟩ SortOrder.newestFirst
        [⟨invalidTime, [], PyVal.none, PyVal.none, []⟩] :=
  time_filter_drops_unparseable.2 [] TimeFilter.beforeTime _ _ _ _ SortOrder.newestFirst
    [⟨invalidTime, [], PyVal.none, PyVal.none, []⟩] ⟨invalidTime, [], PyVal.none, PyVal.none, []⟩
    (by decide) rfl

/-! ## Claim C3: filter-condition ids -/

/-- Ids handed out by the layout walk lie in `[i, i + number of rows)`. -/
theorem readConditionsFrom_id_bounds (rows : List UiRow) :
    ∀ (i : Nat) (e : FilterEntry), e ∈ readConditionsFrom i rows →
      i ≤ e.id ∧ e.id < i + rows.length := by
  induction rows with
  | nil => intro i e h; cases h
  | cons r rs ih =>
    intro i e h
    unfold readConditionsFrom at h
    by_cases hc : pyStrip r.key ≠ [] ∧ pyStrip r.value ≠ []
    · rw [if_pos hc] at h
      rcases List.mem_cons.mp h with h1 | h1
      · rw [h1]; simp
      · have := ih (i + 1) e h1
        simp only [List.length_cons]
        omega
    · rw [if_neg hc] at h
      have := ih (i + 1) e h
      simp only [List.length_cons]
      omega

/-- The ids handed out by the layout walk are distinct. -/
theorem readConditionsFrom_ids_nodup (rows : List UiRow) :
    ∀ i, ((readConditionsFrom i rows).map FilterEntry.id).Nodup := by
  induction rows with
  | nil => intro i; simp [readConditionsFrom]
  | cons r rs ih =>
    intro i
    unfold readConditionsFrom
    by_cases hc : pyStrip r.key ≠ [] ∧ pyStrip r.value ≠ []
    · rw [if_pos hc]
      simp only [List.map_cons]
      rw [List.nodup_cons]
      refine ⟨?_, ih (i + 1)⟩
      intro hmem
      obtain ⟨e, he, hid⟩ := List.mem_map.mp hmem
      have := (readConditionsFrom_id_bounds rs (i + 1) e he).1
      omega
    · rw [if_neg hc]
      exact ih (i + 1)

/-- The state invariant behind id uniqueness: entry ids and row ids are
distinct and below the counter, and no more rows exist than ids ever
handed out. -/
def FInv (st : FState) : Prop :=
  (st.filterEntries.map FilterEntry.id).Nodup
  ∧ (∀ e ∈ st.filterEntries, e.id < st.filterIdCounter)
  ∧ (st.rows.map Prod.fst).Nodup
  ∧ (∀ p ∈ st.rows, p.1 < st.filterIdCounter)
  ∧ st.rows.length ≤ st.filterIdCounter

/-- Claim C3 (counterexample): add two conditions (ids 0 and 1), remove
the condition with id 0; the re-apply inside the removal rebuilds the
set with layout indices as ids, so the surviving condition — the one the
user keyed `b` — now carries the removed id 0 before any clear. -/
theorem filter_id_reused_after_apply :
    ((addFilterEntry (addFilterEntry initFState ⟨chars "a", chars "1", true, false⟩)
        ⟨chars "b", chars "2", true, false⟩).filterEntries.map FilterEntry.id = [0, 1])
    ∧ (removeFilterEntry
        (addFilterEntry (addFilterEntry initFState ⟨chars "a", chars "1", true, false⟩)
          ⟨chars "b", chars "2", true, false⟩) 0).filterEntries
      = [⟨0, chars "b", chars "2", true, false⟩] :=
  ⟨rfl, rfl⟩

/-- Claim C3 (amended): every filter-set operation preserves uniqueness
of the ids in the live set (together with the supporting bounds), but —
per the counterexample — `_apply_filters` reassigns layout indices as
ids, so an id of a removed condition can reappear on a different
condition before the set is cleared. -/
theorem filter_ids_unique_per_operation :
    FInv initFState
    ∧ (∀ st r, FInv st → FInv (addFilterEntry st r))
    ∧ (∀ st, FInv st → FInv (applyFiltersState st))
    ∧ (∀ st i, FInv st → FInv (removeFilterEntry st i))
    ∧ (∀ st, FInv (clearFilters st)) := by
  have happly : ∀ st, FInv st → FInv (applyFiltersState st) := by
    intro st ⟨_, _, hrn, hrb, hrl⟩
    refine ⟨readConditionsFrom_ids_nodup _ 0, ?_, hrn, hrb, hrl⟩
    intro e he
    have := (readConditionsFrom_id_bounds _ 0 e he).2
    simp only [applyFiltersState]
    simp only [List.length_map] at this
    omega
  have hinit : FInv initFState := by
    refine ⟨List.nodup_nil, ?_, List.nodup_nil, ?_, Nat.le_refl 0⟩ <;> intro x hx <;> cases hx
  refine ⟨hinit, ?_, happly, ?_, ?_⟩
  · intro st r ⟨hen, heb, hrn, hrb, hrl⟩
    refine ⟨?_, ?_, ?_, ?_, ?_⟩
    · simp only [addFilterEntry, List.map_append, List.map_cons, List.map_nil]
      rw [List.nodup_append]
      refine ⟨hen, List.nodup_singleton _, ?_⟩
      intro x hx hx'
      rw [List.mem_singleton] at hx'
      obtain ⟨e, he, hid⟩ := List.mem_map.mp hx
      have := heb e he
      omega
    · intro e he
      simp only [addFilterEntry] at he ⊢
      rcases List.mem_append.mp he with h1 | h1
      · have := heb e h1; omega
      · rw [List.mem_singleton] at h1; rw [h1]; simp
    · simp only [addFilterEntry, List.map_append, List.map_cons, List.map_nil]
      rw [List.nodup_append]
      refine ⟨hrn, List.nodup_singleton _, ?_⟩
      intro x hx hx'
      rw [List.mem_singleton] at hx'
      obtain ⟨p, hp, hid⟩ := List.mem_map.mp hx
      have := hrb p hp
      omega
    · intro p hp
      simp only [addFilterEntry] at hp ⊢
      rcases List.mem_append.mp hp with h1 | h1
      · have := hrb p h1; omega
      · rw [List.mem_singleton] at h1; rw [h1]; simp
    · simp only [addFilterEntry, List.length_append, List.length_cons, List.length_nil]
      omega
  · intro st i ⟨hen, heb, hrn, hrb, hrl⟩
    apply happly
    refine ⟨?_, ?_, ?_, ?_, ?_⟩
    · exact List.Nodup.sublist ((List.filter_sublist _).map FilterEntry.id) hen
    · intro e he
      exact heb e (List.mem_of_mem_filter he)
    · exact List.Nodup.sublist ((List.filter_sublist _).map Prod.fst) hrn
    · intro p hp
      exact hrb p (List.mem_of_mem_filter hp)
    · exact Nat.le_trans (List.length_filter_le _ _) hrl
  · intro st
    apply happly
    exact hinit

/-- Witness for `filter_ids_unique_per_operation`: the invariant holds
after adding a first condition to the initial state. -/
theorem filter_ids_unique_per_operation_witness :
    FInv (addFilterEntry initFState ⟨chars "a", chars "1", true, false⟩) :=
  filter_ids_unique_per_operation.2.1 initFState ⟨chars "a", chars "1", true, false⟩
    filter_ids_unique_per_operation.1

/-! ## Claim C8: pagination -/

/-- Concatenating the first `n` page slices of size `ps` takes the first
`n * ps` elements. -/
theorem flatten_page_slices (ps : Nat) :
    ∀ (n : Nat) (l : List MasaLogEntry),
      ((List.range n).map (fun i => (l.drop (i * ps)).take ps)).flatten = l.take (n * ps) := by
  intro n
  induction n with
  | zero => intro l; simp
  | succ n ih =>
    intro l
    rw [List.range_succ, List.map_append, List.flatten_append, ih]
    simp only [List.map_cons, List.map_nil, List.flatten_cons, List.flatten_nil, List.append_nil]
    rw [← List.take_add, Nat.succ_mul]

/-- Claim C8: `paginate` returns the slice
`[(page-1)*pageSize, min(page*pageSize, length))` after clamping the page
into `[1, max 1 ⌈length/pageSize⌉]`, and the pages `1..⌈length/pageSize⌉`
concatenate back to the whole list, with no overlap and no omission. -/
theorem pagination_correct (l : List MasaLogEntry) (ps p : Nat) (hps : 0 < ps) :
    (1 ≤ clampPage l.length ps p ∧ clampPage l.length ps p ≤ totalPagesOf l.length ps)
    ∧ paginate l ps p
        = (l.take (min (clampPage l.length ps p * ps) l.length)).drop
            ((clampPage l.length ps p - 1) * ps)
    ∧ ((List.range ((l.length + ps - 1) / ps)).map (fun i => paginate l ps (i + 1))).flatten
        = l := by
  refine ⟨⟨Nat.le_max_left _ _, ?_⟩, ?_, ?_⟩
  · exact Nat.max_le.mpr ⟨Nat.le_max_left _ _, Nat.min_le_right _ _⟩
  · have hq01 : 1 ≤ clampPage l.length ps p := Nat.le_max_left _ _
    obtain ⟨q1, hq1⟩ : ∃ q1, clampPage l.length ps p = q1 + 1 :=
      ⟨clampPage l.length ps p - 1, by omega⟩
    unfold paginate
    rw [List.drop_take, List.take_eq_take]
    rw [hq1]
    simp only [Nat.add_sub_cancel, List.length_drop, Nat.succ_mul]
    generalize q1 * ps = m
    omega
  · set q := (l.length + ps - 1) / ps with hq
    have hcongr : ∀ i ∈ List.range q, paginate l ps (i + 1) = (l.drop (i * ps)).take ps := by
      intro i hi
      rw [List.mem_range] at hi
      have hcl : clampPage l.length ps (i + 1) = i + 1 := by
        unfold clampPage totalPagesOf
        rw [← hq]
        omega
      unfold paginate
      rw [hcl]
      simp only [Nat.add_sub_cancel]
    rw [List.map_congr_left hcongr, flatten_page_slices ps q l]
    apply List.take_of_length_le
    have hdm := Nat.div_add_mod (l.length + ps - 1) ps
    have hmod := Nat.mod_lt (l.length + ps - 1) hps
    rw [← hq] at hdm
    rw [Nat.mul_comm]
    generalize ps * q = m at hdm ⊢
    omega

/-- Witness for `pagination_correct`: three records at page size two
paginate as two covering pages. -/
theorem pagination_correct_witness :
    ((List.range ((([⟨chars "t1", [], PyVal.none, PyVal.none, []⟩,
        ⟨chars "t2", [], PyVal.none, PyVal.none, []⟩,
        ⟨chars "t3", [], PyVal.none, PyVal.none, []⟩] : List MasaLogEntry).length + 2 - 1) / 2)).map
      (fun i => paginate [⟨chars "t1", [], PyVal.none, PyVal.none, []⟩,
        ⟨chars "t2", [], PyVal.none, PyVal.none, []⟩,
        ⟨chars "t3", [], PyVal.none, PyVal.none, []⟩] 2 (i + 1))).flatten
      = [⟨chars "t1", [], PyVal.none, PyVal.none, []⟩,
        ⟨chars "t2", [], PyVal.none, PyVal.none, []⟩,
        ⟨chars "t3", [], PyVal.none, PyVal.none, []⟩] :=
  (pagination_correct _ 2 7 (by decide)).2.2

/-! ## Claim C7: sorting -/

/-- Lexicographic comparison is reflexive. -/
theorem tsLe_refl : ∀ s : List Char, tsLe s s = true := by
  intro s
  induction s with
  | nil => rfl
  | cons c cs ih => simp [tsLe, ih]

/-- Lexicographic comparison is total. -/
theorem tsLe_total : ∀ a b : List Char, (tsLe a b || tsLe b a) = true := by
  intro a
  induction a with
  | nil => intro b; simp [tsLe]
  | cons x xs ih =>
    intro b
    cases b with
    | nil => simp [tsLe]
    | cons y ys =>
      by_cases hxy : x = y
      · subst hxy
        simp [tsLe, ih ys]
      · rcases lt_or_gt_of_ne hxy with h | h
        · simp [tsLe, hxy, Ne.symm hxy, h]
        · simp [tsLe, hxy, Ne.symm hxy, h]

/-- Lexicographic comparison is transitive. -/
theorem tsLe_trans : ∀ a b c : List Char,
    tsLe a b = true → tsLe b c = true → tsLe a c = true := by
  intro a
  induction a with
  | nil => intro b c _ _; simp [tsLe]
  | cons x xs ih =>
    intro b c h1 h2
    cases b with
    | nil => simp [tsLe] at h1
    | cons y ys =>
      cases c with
      | nil => simp [tsLe] at h2
      | cons z zs =>
        by_cases hxy : x = y
        · subst hxy
          by_cases hyz : x = z
          · subst hyz
            simp only [tsLe, if_pos rfl] at h1 h2 ⊢
            exact ih ys zs h1 h2
          · simp only [tsLe, if_pos rfl, if_neg hyz] at h1 h2 ⊢
            exact h2
        · by_cases hyz : y = z
          · subst hyz
            simp only [tsLe, if_neg hxy] at h1 ⊢
            exact h1
          · simp only [tsLe, if_neg hxy, if_neg hyz, decide_eq_true_eq] at h1 h2
            have hxz : x < z := lt_trans h1 h2
            simp only [tsLe, if_neg (ne_of_lt hxz), decide_eq_true_eq]
            exact hxz

/-- Lexicographic comparison is antisymmetric. -/
theorem tsLe_antisymm : ∀ a b : List Char,
    tsLe a b = true → tsLe b a = true → a = b := by
  intro a
  induction a with
  | nil =>
    intro b h1 h2
    cases b with
    | nil => rfl
    | cons y ys => simp [tsLe] at h2
  | cons x xs ih =>
    intro b h1 h2
    cases b with
    | nil => simp [tsLe] at h1
    | cons y ys =>
      by_cases hxy : x = y
      · subst hxy
        simp only [tsLe, if_pos rfl] at h1 h2
        rw [ih ys h1 h2]
      · simp only [tsLe, if_neg hxy, if_neg (Ne.symm hxy), decide_eq_true_eq] at h1 h2
        exact absurd h2 (lt_asymm h1)

/-- The sort comparison is transitive for either order. -/
theorem sortLe_trans (o : SortOrder) : ∀ a b c : MasaLogEntry,
    sortLe o a b → sortLe o b c → sortLe o a c := by
  cases o with
  | newestFirst => exact fun a b c h1 h2 => tsLe_trans _ _ _ h2 h1
  | oldestFirst => exact fun a b c h1 h2 => tsLe_trans _ _ _ h1 h2

/-- The sort comparison is total for either order. -/
theorem sortLe_total (o : SortOrder) : ∀ a b : MasaLogEntry,
    (sortLe o a b || sortLe o b a) = true := by
  cases o with
  | newestFirst => exact fun a b => tsLe_total _ _
  | oldestFirst => exact fun a b => tsLe_total _ _

/-- Claim C7: sorting orders records by the timestamp string
(lexicographically), descending for NEWEST_FIRST and ascending for
OLDEST_FIRST; it is stable in both directions (the records of any fixed
timestamp keep their original order); and on pairwise-distinct
timestamps, re-sorting the NEWEST_FIRST result by OLDEST_FIRST reverses
it. -/
theorem sort_by_timestamp_correct :
    (∀ l, (sortRecords SortOrder.newestFirst l).Pairwise
        (fun a b => tsLe b.timestamp a.timestamp = true))
    ∧ (∀ l, (sortRecords SortOrder.oldestFirst l).Pairwise
        (fun a b => tsLe a.timestamp b.timestamp = true))
    ∧ (∀ (o : SortOrder) (l : List MasaLogEntry) (t : List Char),
        (sortRecords o l).filter (fun r => r.timestamp == t)
          = l.filter (fun r => r.timestamp == t))
    ∧ (∀ l : List MasaLogEntry,
        l.Pairwise (fun a b => a.timestamp ≠ b.timestamp) →
        sortRecords SortOrder.oldestFirst (sortRecords SortOrder.newestFirst l)
          = (sortRecords SortOrder.newestFirst l).reverse) := by
  refine ⟨?_, ?_, ?_, ?_⟩
  · intro l
    exact List.sorted_mergeSort (sortLe_trans SortOrder.newestFirst)
      (sortLe_total SortOrder.newestFirst) l
  · intro l
    exact List.sorted_mergeSort (sortLe_trans SortOrder.oldestFirst)
      (sortLe_total SortOrder.oldestFirst) l
  · intro o l t
    have hpw : (l.filter (fun r => r.timestamp == t)).Pairwise (fun a b => sortLe o a b = true) := by
      apply List.pairwise_of_forall_mem_list
      intro a ha b hb
      have ha' := (List.mem_filter.mp ha).2
      have hb' := (List.mem_filter.mp hb).2
      rw [beq_iff_eq] at ha' hb'
      cases o <;> simp only [sortLe] <;> rw [ha', hb'] <;> exact tsLe_refl t
    have hsub : List.Sublist (l.filter (fun r => r.timestamp == t))
        (List.mergeSort l (sortLe o)) :=
      List.sublist_mergeSort (sortLe_trans o) (sortLe_total o) hpw (List.filter_sublist l)
    have hsub2 : List.Sublist (l.filter (fun r => r.timestamp == t))
        ((List.mergeSort l (sortLe o)).filter (fun r => r.timestamp == t)) := by
      have := hsub.filter (fun r => r.timestamp == t)
      rwa [List.filter_filter, (by funext a; rw [Bool.and_self] :
        (fun (a : MasaLogEntry) => (a.timestamp == t) && (a.timestamp == t))
          = fun a => a.timestamp == t)] at this
    have hperm : List.Perm ((List.mergeSort l (sortLe o)).filter (fun r => r.timestamp == t))
        (l.filter (fun r => r.timestamp == t)) :=
      (List.mergeSort_perm l _).filter _
    exact (hsub2.eq_of_length hperm.length_eq.symm).symm
  · intro l hdist
    haveI : IsAntisymm MasaLogEntry
        (fun a b => tsLe a.timestamp b.timestamp = true ∧ a.timestamp ≠ b.timestamp) :=
      ⟨fun a b h1 h2 => absurd (tsLe_antisymm _ _ h1.1 h2.1) h1.2⟩
    have hdesc : (sortRecords SortOrder.newestFirst l).Pairwise
        (fun a b => tsLe b.timestamp a.timestamp = true) :=
      List.sorted_mergeSort (sortLe_trans SortOrder.newestFirst)
        (sortLe_total SortOrder.newestFirst) l
    have hdistd : (sortRecords SortOrder.newestFirst l).Pairwise
        (fun a b => a.timestamp ≠ b.timestamp) :=
      ((List.mergeSort_perm l (sortLe SortOrder.newestFirst)).pairwise_iff
        (fun h => Ne.symm h)).mpr hdist
    have hasc : (sortRecords SortOrder.oldestFirst
          (sortRecords SortOrder.newestFirst l)).Pairwise
        (fun a b => tsLe a.timestamp b.timestamp = true) :=
      List.sorted_mergeSort (sortLe_trans SortOrder.oldestFirst)
        (sortLe_total SortOrder.oldestFirst) _
    have hdistl : (sortRecords SortOrder.oldestFirst
          (sortRecords SortOrder.newestFirst l)).Pairwise
        (fun a b => a.timestamp ≠ b.timestamp) :=
      ((List.mergeSort_perm _ (sortLe SortOrder.oldestFirst)).pairwise_iff
        (fun h => Ne.symm h)).mpr hdistd
    have hsortedL : (sortRecords SortOrder.oldestFirst
          (sortRecords SortOrder.newestFirst l)).Pairwise
        (fun a b => tsLe a.timestamp b.timestamp = true ∧ a.timestamp ≠ b.timestamp) :=
      hasc.and hdistl
    have hsortedR : ((sortRecords SortOrder.newestFirst l).reverse).Pairwise
        (fun a b => tsLe a.timestamp b.timestamp = true ∧ a.timestamp ≠ b.timestamp) := by
      rw [List.pairwise_reverse]
      exact (hdesc.and hdistd).imp (fun h => ⟨h.1, Ne.symm h.2⟩)
    have hperm : List.Perm
        (sortRecords SortOrder.oldestFirst (sortRecords SortOrder.newestFirst l))
        ((sortRecords SortOrder.newestFirst l).reverse) :=
      (List.mergeSort_perm _ _).trans (sortRecords SortOrder.newestFirst l).reverse_perm.symm
    exact List.eq_of_perm_of_sorted hperm hsortedL hsortedR

/-- Witness for `sort_by_timestamp_correct`: on two records with
distinct timestamps, re-sorting oldest-first reverses the newest-first
order. -/
theorem sort_by_timestamp_correct_witness :
    sortRecords SortOrder.oldestFirst (sortRecords SortOrder.newestFirst
        [⟨chars "2024-01-01 10:00:00", [], PyVal.none, PyVal.none, []⟩,
         ⟨chars "2024-01-02 10:00:00", [], PyVal.none, PyVal.none, []⟩])
      = (sortRecords SortOrder.newestFirst
        [⟨chars "2024-01-01 10:00:00", [], PyVal.none, PyVal.none, []⟩,
         ⟨chars "2024-01-02 10:00:00", [], PyVal.none, PyVal.none, []⟩]).reverse :=
  sort_by_timestamp_correct.2.2.2
    [⟨chars "2024-01-01 10:00:00", [], PyVal.none, PyVal.none, []⟩,
     ⟨chars "2024-01-02 10:00:00", [], PyVal.none, PyVal.none, []⟩]
    (List.pairwise_pair.mpr (by decide))

/-! ## Claim C2: the bounded lazy match captures the whole JSON object -/

/-- A list is a prefix of itself followed by anything. -/
theorem isPrefixOf_append_self : ∀ (l t : List Char), l.isPrefixOf (l ++ t) = true := by
  intro l
  induction l with
  | nil => intro t; simp [List.isPrefixOf]
  | cons c cs ih => intro t; simp [List.isPrefixOf, ih t]

/-- The group-2 scan consumes exactly the object body: the `$`-anchored
`\} \[\]` can only fire on the `}` directly before the trailing ` []`,
never on a `}` inside the body. -/
theorem scanJson_run : ∀ (inner : List Char), '\n' ∉ inner →
    ∀ acc, scanJson (inner ++ '\x7d' :: chars " []") acc = some (acc.reverse ++ inner) := by
  intro inner
  induction inner with
  | nil => intro _ acc; simp [scanJson, chars]
  | cons c cs ih =>
    intro hnl acc
    have hc : ¬(c = '\x7d' ∧ cs ++ '\x7d' :: chars " []" = [' ', '[', ']']) := by
      rintro ⟨-, habs⟩
      have hlen := congrArg List.length habs
      simp [chars] at hlen
    have hcn : c ≠ '\n' := fun h => hnl (h ▸ List.mem_cons_self c cs)
    simp only [List.cons_append, scanJson, List.append_eq]
    rw [if_neg hc, if_neg hcn, ih (fun h => hnl (List.mem_cons_of_mem c h)) (c :: acc)]
    simp

/-- One unfolding step of the marker scan. -/
theorem scanMarker_cons (c : Char) (rest : List Char) :
    scanMarker (c :: rest) =
      if postMarker.isPrefixOf (c :: rest) then
        match scanJson ((c :: rest).drop postMarker.length) [] with
        | some body => some ('\x7b' :: body ++ ['\x7d'])
        | Option.none => if c = '\n' then Option.none else scanMarker rest
      else if c = '\n' then Option.none else scanMarker rest := by
  simp only [scanMarker]

/-- At the marker itself, the scan returns the whole object: opening
brace, body (nested braces included) and its own closing brace. -/
theorem scanMarker_at (inner : List Char) (h : '\n' ∉ inner) :
    scanMarker (postMarker ++ (inner ++ '\x7d' :: chars " []"))
      = some ('\x7b' :: inner ++ ['\x7d']) := by
  have hpre : postMarker.isPrefixOf
      ('P' :: (chars "OST Request Details \x7b" ++ (inner ++ '\x7d' :: chars " []"))) = true :=
    isPrefixOf_append_self postMarker (inner ++ '\x7d' :: chars " []")
  have hdrop : (('P' :: (chars "OST Request Details \x7b" ++ (inner ++ '\x7d' :: chars " []"))).drop
      postMarker.length) = inner ++ '\x7d' :: chars " []" :=
    List.drop_left postMarker (inner ++ '\x7d' :: chars " []")
  have hstep : postMarker ++ (inner ++ '\x7d' :: chars " []")
      = 'P' :: (chars "OST Request Details \x7b" ++ (inner ++ '\x7d' :: chars " []")) := rfl
  rw [hstep, scanMarker_cons, if_pos hpre, hdrop, scanJson_run inner h []]
  simp

/-- Scanning over marker-free text just moves the lazy `.*?` forward. -/
theorem scanMarker_skip : ∀ (mid rest : List Char), '\n' ∉ mid →
    (∀ i, i < mid.length → ¬ (postMarker.isPrefixOf (mid.drop i ++ rest) = true)) →
    scanMarker (mid ++ rest) = scanMarker rest := by
  intro mid
  induction mid with
  | nil => intro rest _ _; rfl
  | cons m ms ih =>
    intro rest hnl hno
    rw [List.cons_append, scanMarker_cons]
    have h0 : ¬ (postMarker.isPrefixOf (m :: (ms ++ rest)) = true) := by
      have := hno 0 (by simp)
      simpa using this
    rw [if_neg h0]
    have hmn : m ≠ '\n' := fun h => hnl (h ▸ List.mem_cons_self m ms)
    rw [if_neg hmn]
    exact ih rest (fun h => hnl (List.mem_cons_of_mem m h))
      (fun i hi => by
        have := hno (i + 1) (by simp only [List.length_cons]; omega)
        simpa using this)

/-- The group-1 scan commits at the first `]` from which the rest of the
pattern matches. -/
theorem scanBracket_run : ∀ (t : List Char), ']' ∉ t → '\n' ∉ t →
    ∀ (rest js : List Char), scanMarker rest = some js →
    ∀ acc, scanBracket (t ++ ']' :: rest) acc = some (acc.reverse ++ t, js) := by
  intro t
  induction t with
  | nil =>
    intro _ _ rest js hm acc
    simp [scanBracket, hm]
  | cons c cs ih =>
    intro hbr hnl rest js hm acc
    have hc1 : c ≠ ']' := fun h => hbr (h ▸ List.mem_cons_self c cs)
    have hc2 : c ≠ '\n' := fun h => hnl (h ▸ List.mem_cons_self c cs)
    simp only [List.cons_append, scanBracket, List.append_eq]
    rw [if_neg hc1, if_neg hc2,
      ih (fun h => hbr (List.mem_cons_of_mem c h)) (fun h => hnl (List.mem_cons_of_mem c h))
        rest js hm (c :: acc)]
    simp

/-- Claim C2: on a line of the matched shape whose JSON object may hold
arbitrarily nested braces, the pattern's bounded lazy group captures the
object up to its own trailing `}` (the one before the final ` []`), not
up to the first `}` — the whole object text reaches the JSON parser.
The timestamp must not contain `]` (the lazy group 1 stops at the first
`]`), the middle must not contain another marker occurrence, and no part
contains a newline (`.` does not match one). -/
theorem nested_braces_fully_matched (t mid inner : List Char)
    (ht1 : ']' ∉ t) (ht2 : '\n' ∉ t) (hmid : '\n' ∉ mid) (hinner : '\n' ∉ inner)
    (hno : ∀ i, i < mid.length →
      ¬ (postMarker.isPrefixOf
          (mid.drop i ++ (postMarker ++ (inner ++ '\x7d' :: chars " []"))) = true)) :
    matchLine ('[' :: (t ++ ']' :: (mid ++ (postMarker ++ (inner ++ '\x7d' :: chars " []")))))
      = some (t, '\x7b' :: inner ++ ['\x7d']) := by
  have hmark : scanMarker (mid ++ (postMarker ++ (inner ++ '\x7d' :: chars " []")))
      = some ('\x7b' :: inner ++ ['\x7d']) := by
    rw [scanMarker_skip mid _ hmid hno]
    exact scanMarker_at inner hinner
  have hrun := scanBracket_run t ht1 ht2 _ _ hmark []
  simp only [matchLine]
  rw [hrun]
  simp

/-- Witness for `nested_braces_fully_matched`: a timestamped line whose
payload holds a nested object is captured whole. -/
theorem nested_braces_fully_matched_witness :
    matchLine ('[' :: (chars "ts" ++ ']' :: (chars " "
        ++ (postMarker ++ (chars "\"a\": \x7b\"b\": \"2\"\x7d" ++ '\x7d' :: chars " []")))))
      = some (chars "ts", '\x7b' :: chars "\"a\": \x7b\"b\": \"2\"\x7d" ++ ['\x7d']) :=
  nested_braces_fully_matched (chars "ts") (chars " ") (chars "\"a\": \x7b\"b\": \"2\"\x7d")
    (by decide) (by decide) (by decide) (by decide) (by decide)
